import Mathlib

/-!
Verification of the dictionary-trie word segmenter of the `thai-nlp`
repository (crate `thai-wbk`).  The repository holds two copies of the
segmentation logic:

* `src/thai-wbk/src/segments/trie.rs` — the copy exported to `main.rs`.
  Its search walks the text and collects every dictionary word found
  along the walk (shortest first); its segmenter works on a vector of
  characters, always consumes `matches[0]` (the shortest match), and has
  a diacritic fallback merging a following combining mark.
* `src/thai-wbk/src/trie/trie.rs` — a second copy whose search keeps only
  the longest match and whose segmenter mixes byte indices
  (`text.len()`, `&text[index..]`, `&text[index..index + 1]`) with
  character counts (`matching_word.chars().count()`).

Texts and words are embedded as `List Char` (Rust iterates over
`char`s, i.e. Unicode scalar values).  The `HashMap<char, TrieNode>`
of children is embedded as an association list: the code only ever uses
`get` and `entry(..).or_insert(..)`, both of which are insensitive to the
map's iteration order, so an association list with first-key lookup is an
exact model.  Byte-level slicing in the second copy is embedded
explicitly with UTF-8 sizes, and a slice at a non-character-boundary —
a Rust panic — is modelled as `none`.
-/

/-- Embeds `TrieNode` of `segments/trie.rs` and `trie/trie.rs`
(both files define the identical structure): a map from `char` to child
nodes plus the `is_end_of_word` flag. -/
inductive TrieNode : Type where
  | node (is_end_of_word : Bool) (children : List (Char × TrieNode)) : TrieNode
deriving Repr

/-- The `is_end_of_word` field. -/
def TrieNode.is_end_of_word : TrieNode → Bool
  | .node e _ => e

/-- The `children` field. -/
def TrieNode.children : TrieNode → List (Char × TrieNode)
  | .node _ cs => cs

/-- Embeds `TrieNode::new()`: empty children, flag false. -/
def TrieNode.new : TrieNode := .node false []

/-- Embeds `node.children.get(&ch)` of the `HashMap`: first (and in
practice only) binding of the key. -/
def findChild : List (Char × TrieNode) → Char → Option TrieNode
  | [], _ => none
  | (c, n) :: rest, ch => if c = ch then some n else findChild rest ch

/-- Embeds `node.children.entry(ch).or_insert(TrieNode::new())` followed
by the rest of the insertion `f` on the found-or-created child: the first
binding of `ch` is rewritten in place, a missing key is added. -/
def updateAssoc : List (Char × TrieNode) → Char → (TrieNode → TrieNode) → List (Char × TrieNode)
  | [], ch, f => [(ch, f TrieNode.new)]
  | (c, n) :: rest, ch, f => if c = ch then (c, f n) :: rest else (c, n) :: updateAssoc rest ch f

/-- Embeds `Trie::insert` (identical in both files): walk/create one node
per character of the word, then set `is_end_of_word` on the final node.
Note that for the empty word the loop body never runs and the flag is set
on the root itself. -/
def insertW : List Char → TrieNode → TrieNode
  | [], .node _ cs => .node true cs
  | ch :: w, .node e cs => .node e (updateAssoc cs ch (fun m => insertW w m))

/-- Embeds `Trie` (both files): a single root node. -/
structure Trie : Type where
  root : TrieNode
deriving Repr

/-- Embeds `Trie::new()`. -/
def Trie.new : Trie := ⟨TrieNode.new⟩

/-- Embeds `Trie::insert` at the `Trie` level. -/
def Trie.insert (t : Trie) (w : List Char) : Trie := ⟨insertW w t.root⟩

/-- Embeds the dictionary build loop (`load_dictionary_from_file` /
the test helpers): insert a list of words in order, starting from
`Trie::new()`. -/
def buildTrie (ws : List (List Char)) : Trie := ws.foldl Trie.insert Trie.new

/-- Embeds the loop of `search_longest_prefix` of `segments/trie.rs`:
walk the text from node `n`, `cur` being the `current_match` accumulator;
each time the visited child's flag is set, `current_match` is recorded.
The walk breaks at the first missing child. -/
def allMatchesAux : TrieNode → List Char → List Char → List (List Char)
  | _, [], _ => []
  | n, ch :: rest, cur =>
    match findChild n.children ch with
    | none => []
    | some next =>
      (if next.is_end_of_word then [cur ++ [ch]] else []) ++ allMatchesAux next rest (cur ++ [ch])

/-- Embeds `search_longest_prefix` of `segments/trie.rs`: all matches
recorded along the walk, `None` when that list is empty. -/
def searchMatches (t : Trie) (s : List Char) : Option (List (List Char)) :=
  let all := allMatchesAux t.root s []
  if all.isEmpty then none else some all

/-- Embeds the loop of `search_longest_prefix` of `trie/trie.rs`:
same walk, but only the last match found is kept in `longest_match`
(`best`). -/
def searchLongestAux : TrieNode → List Char → List Char → Option (List Char) → Option (List Char)
  | _, [], _, best => best
  | n, ch :: rest, cur, best =>
    match findChild n.children ch with
    | none => best
    | some next =>
      searchLongestAux next rest (cur ++ [ch])
        (if next.is_end_of_word then some (cur ++ [ch]) else best)

/-- Embeds `search_longest_prefix` of `trie/trie.rs`. -/
def searchLongest (t : Trie) (s : List Char) : Option (List Char) :=
  searchLongestAux t.root s [] none

/-- Embeds the diacritic test of `segments/trie.rs`:
`next_char == '\u{e47}' || ... || next_char == '\u{e4b}'`. -/
def isDiacritic (c : Char) : Bool :=
  c == Char.ofNat 0xe47 || c == Char.ofNat 0xe48 || c == Char.ofNat 0xe49 ||
  c == Char.ofNat 0xe4a || c == Char.ofNat 0xe4b

/-- Embeds the `while index < chars.len()` loop of `segment_thai_text` of
`segments/trie.rs`, written on the remaining character suffix instead of
the index `i` into the fixed vector (`chars[index..]` is exactly that
suffix).  `fuel` bounds the number of loop iterations; the loop runs at
most `s.length` times because every iteration consumes at least one
character (`segmentFuel_stable` below makes this precise).  The
`some []` branch is unreachable — `searchMatches` never returns
`some []` (`searchMatches_ne_some_nil`); in Rust `matches[0]` on an
empty vector would panic. -/
def segmentFuel (t : Trie) : Nat → List Char → List (List Char)
  | 0, _ => []
  | _ + 1, [] => []
  | fuel + 1, c :: cs =>
    match searchMatches t (c :: cs) with
    | some (w :: _) => w :: segmentFuel t fuel ((c :: cs).drop w.length)
    | some [] => []
    | none =>
      match cs with
      | c2 :: cs' =>
        if isDiacritic c2 then [c, c2] :: segmentFuel t fuel cs'
        else [c] :: segmentFuel t fuel (c2 :: cs')
      | [] => [c] :: segmentFuel t fuel []

/-- Embeds `segment_thai_text` of `segments/trie.rs` (the copy `main.rs`
calls). -/
def segment_thai_text (t : Trie) (s : List Char) : List (List Char) :=
  segmentFuel t s.length s

/-- Embeds Rust's `char::len_utf8` (the number of bytes of the scalar
value in UTF-8), which governs byte indices into a `&str`. -/
def utf8Len (c : Char) : Nat :=
  if c.val < 0x80 then 1 else if c.val < 0x800 then 2 else if c.val < 0x10000 then 3 else 4

/-- Embeds `text.len()` of a Rust `&str`: its UTF-8 byte length. -/
def byteLen (s : List Char) : Nat := (s.map utf8Len).sum

/-- Embeds the byte slice `&text[n..]`: `none` models the Rust panic when
`n` is not a character boundary or exceeds the length. -/
def byteDrop : Nat → List Char → Option (List Char)
  | 0, s => some s
  | _ + 1, [] => none
  | n + 1, c :: cs =>
    if n + 1 < utf8Len c then none else byteDrop (n + 1 - utf8Len c) (cs : List Char)

/-- Embeds the byte slice `&text[n..n + 1]` used by the fallback of
`trie/trie.rs`: one byte starting at `n`; `none` models the Rust panic
when `n` or `n + 1` is not a character boundary (in particular when the
character at `n` occupies more than one byte). -/
def byteSlice1 (n : Nat) (s : List Char) : Option Char :=
  match byteDrop n s with
  | some (c :: _) => if utf8Len c = 1 then some c else none
  | _ => none

/-- Embeds the `while index < text.len()` loop of `segment_thai_text` of
`trie/trie.rs`: `index` is a BYTE index into `text`, yet a dictionary
match advances it by the match's CHARACTER count
(`index += matching_word.chars().count()`).  `none` models a panic.
`fuel` bounds the iteration count; `byteLen text` iterations always
suffice because `index` grows by at least one per iteration. -/
def segV2Aux (t : Trie) (text : List Char) : Nat → Nat → Option (List (List Char))
  | 0, index => if index < byteLen text then none else some []
  | fuel + 1, index =>
    if index < byteLen text then
      match byteDrop index text with
      | none => none
      | some remaining =>
        match searchLongest t remaining with
        | some w => (segV2Aux t text fuel (index + w.length)).map (fun r => w :: r)
        | none =>
          match byteSlice1 index text with
          | none => none
          | some c => (segV2Aux t text fuel (index + 1)).map (fun r => [c] :: r)
    else some []

/-- Embeds `segment_thai_text` of `trie/trie.rs` (`some` tokens on normal
return, `none` on panic). -/
def segment_thai_text_v2 (t : Trie) (text : List Char) : Option (List (List Char)) :=
  segV2Aux t text (byteLen text) 0

/-- Walks a word from a node: `true` iff the walk ends at a node whose
`is_end_of_word` flag is set — i.e. the word is in the (sub)trie.  This is
the spec's notion «a word is in the trie iff walking its characters from
the root reaches a node whose end-of-word flag is true». -/
def endAt : TrieNode → List Char → Bool
  | n, [] => n.is_end_of_word
  | n, c :: p =>
    match findChild n.children c with
    | none => false
    | some m => endAt m p

-- Concrete dictionaries and texts used by the claims.

/-- The word «สวัสดี» (THAI: SO SUA, WO WAEN, MAI HAN-AKAT, SO SUA,
DO DEK, SARA II). -/
def wordSawasdee : List Char :=
  [Char.ofNat 0xe2a, Char.ofNat 0xe27, Char.ofNat 0xe31, Char.ofNat 0xe2a,
   Char.ofNat 0xe14, Char.ofNat 0xe35]

/-- The word «ครับ» (KHO KHWAI, RO RUA, MAI HAN-AKAT, BO BAIMAI). -/
def wordKhrap : List Char :=
  [Char.ofNat 0xe04, Char.ofNat 0xe23, Char.ofNat 0xe31, Char.ofNat 0xe1a]

/-- The word «คุณ» (KHO KHWAI, SARA U, NO NEN). -/
def wordKhun : List Char :=
  [Char.ofNat 0xe04, Char.ofNat 0xe38, Char.ofNat 0xe13]

/-- The word «ไป» (SARA AI MAIMALAI, PO PLA). -/
def wordPai : List Char :=
  [Char.ofNat 0xe44, Char.ofNat 0xe1b]

/-- The word «ที่ไหน» (THO THAHAN, SARA II, MAI EK, SARA AI MAIMALAI,
HO HIP, NO NU). -/
def wordThinai : List Char :=
  [Char.ofNat 0xe17, Char.ofNat 0xe35, Char.ofNat 0xe48, Char.ofNat 0xe44,
   Char.ofNat 0xe2b, Char.ofNat 0xe19]

/-- The trie of claim C3: exactly the five words. -/
def trieFive : Trie :=
  ((((Trie.new.insert wordSawasdee).insert wordKhrap).insert wordKhun).insert wordPai).insert
    wordThinai

/-- The text of claim C3, «สวัสดีครับคุณไปที่ไหน»: the concatenation of the
five words. -/
def textFive : List Char := wordSawasdee ++ wordKhrap ++ wordKhun ++ wordPai ++ wordThinai

/-- A two-word dictionary over ASCII, {"a", "ab"}. -/
def trieAB : Trie := (Trie.new.insert ['a']).insert ['a', 'b']

/-- LATIN SMALL LETTER E WITH ACUTE, a two-byte scalar value. -/
def eAcute : Char := Char.ofNat 0xe9

/-- The one-word dictionary {"éx"}. -/
def trieEX : Trie := Trie.new.insert [eAcute, 'x']

/-! ### Basic lemmas on the trie structure -/

theorem findChild_updateAssoc_self (cs : List (Char × TrieNode)) (ch : Char)
    (f : TrieNode → TrieNode) :
    findChild (updateAssoc cs ch f) ch = some (f ((findChild cs ch).getD TrieNode.new)) := by
  induction cs with
  | nil => simp [updateAssoc, findChild]
  | cons p rest ih =>
    obtain ⟨c, n⟩ := p
    by_cases h : c = ch
    · subst h
      simp [updateAssoc, findChild]
    · simp [updateAssoc, findChild, h, ih]

theorem findChild_updateAssoc_ne (cs : List (Char × TrieNode)) (ch c : Char)
    (f : TrieNode → TrieNode) (hne : c ≠ ch) :
    findChild (updateAssoc cs ch f) c = findChild cs c := by
  induction cs with
  | nil =>
    simp only [updateAssoc, findChild]
    rw [if_neg (Ne.symm hne)]
  | cons p rest ih =>
    obtain ⟨c', n⟩ := p
    by_cases h : c' = ch
    · subst h
      simp only [updateAssoc, if_pos rfl, findChild]
      rw [if_neg (Ne.symm hne), if_neg (Ne.symm hne)]
    · simp [updateAssoc, findChild, h, ih]

theorem endAt_new (p : List Char) : endAt TrieNode.new p = false := by
  cases p with
  | nil => rfl
  | cons c q => simp [endAt, TrieNode.new, TrieNode.children, findChild]

/-- Inserting a word adds exactly that word to the membership semantics of
a node and keeps every other word's status. -/
theorem endAt_insertW (w : List Char) (n : TrieNode) (p : List Char) :
    endAt (insertW w n) p = (decide (p = w) || endAt n p) := by
  induction w generalizing n p with
  | nil =>
    obtain ⟨e, cs⟩ := n
    cases p with
    | nil => simp [insertW, endAt, TrieNode.is_end_of_word]
    | cons c q => simp [insertW, endAt, TrieNode.children]
  | cons ch w' ih =>
    obtain ⟨e, cs⟩ := n
    cases p with
    | nil => simp [insertW, endAt, TrieNode.is_end_of_word]
    | cons c q =>
      by_cases hc : c = ch
      · subst hc
        have hfind := findChild_updateAssoc_self cs c (fun m => insertW w' m)
        simp only [insertW, endAt, TrieNode.children, hfind]
        cases hcs : findChild cs c with
        | none =>
          simp only [hcs, Option.getD_none, ih, endAt_new, Bool.or_false]
          simp
        | some m =>
          simp only [hcs, Option.getD_some, ih]
          simp
      · have hfind := findChild_updateAssoc_ne cs ch c (fun m => insertW w' m) hc
        simp only [insertW, endAt, TrieNode.children, hfind]
        have : decide (c :: q = ch :: w') = false := by
          simp [hc]
        rw [this]
        simp

theorem endAt_insert (t : Trie) (w p : List Char) :
    endAt (t.insert w).root p = (decide (p = w) || endAt t.root p) :=
  endAt_insertW w t.root p

/-- Membership semantics of a built dictionary: exactly the inserted
words. -/
theorem endAt_buildTrie_aux (ws : List (List Char)) (t : Trie) (p : List Char) :
    endAt (ws.foldl Trie.insert t).root p = (decide (p ∈ ws) || endAt t.root p) := by
  induction ws generalizing t with
  | nil => simp
  | cons w ws ih =>
    rw [List.foldl_cons, ih, endAt_insert]
    by_cases h1 : p = w <;> by_cases h2 : p ∈ ws <;> simp [h1, h2]

theorem endAt_buildTrie (ws : List (List Char)) (p : List Char) :
    endAt (buildTrie ws).root p = decide (p ∈ ws) := by
  rw [buildTrie, endAt_buildTrie_aux]
  simp [Trie.new, endAt_new]

/-! ### Characterisation of the match walk of `segments/trie.rs` -/

theorem endAt_nil (n : TrieNode) : endAt n [] = n.is_end_of_word := rfl

theorem endAt_cons (n : TrieNode) (c : Char) (q : List Char) :
    endAt n (c :: q) =
      match findChild n.children c with
      | none => false
      | some m => endAt m q := rfl

/-- The matches recorded by the walk are exactly the non-empty dictionary
words (relative to node `n`) among the text's initial segments, each
reported with the `current_match` accumulator `cur` in front. -/
theorem mem_allMatchesAux (s : List Char) :
    ∀ (n : TrieNode) (cur m : List Char),
      m ∈ allMatchesAux n s cur ↔
        ∃ p, m = cur ++ p ∧ p ≠ [] ∧ p <+: s ∧ endAt n p = true := by
  induction s with
  | nil =>
    intro n cur m
    simp only [allMatchesAux, List.not_mem_nil, false_iff]
    rintro ⟨p, _, hne, hpre, _⟩
    exact hne (List.prefix_nil.mp hpre)
  | cons ch rest ih =>
    intro n cur m
    simp only [allMatchesAux]
    cases hfc : findChild n.children ch with
    | none =>
      simp only [List.not_mem_nil, false_iff]
      rintro ⟨p, _, hne, hpre, hend⟩
      cases p with
      | nil => exact hne rfl
      | cons c q =>
        obtain ⟨rfl, hq⟩ := List.cons_prefix_cons.mp hpre
        simp only [endAt_cons, hfc] at hend
        exact Bool.noConfusion hend
    | some next =>
      rw [List.mem_append, ih next (cur ++ [ch]) m]
      constructor
      · rintro (hin | ⟨q, rfl, hqne, hqpre, hqend⟩)
        · by_cases he : next.is_end_of_word
          · rw [if_pos he] at hin
            simp only [List.mem_singleton] at hin
            subst hin
            refine ⟨[ch], rfl, by simp, ?_, ?_⟩
            · exact List.cons_prefix_cons.mpr ⟨rfl, List.nil_prefix⟩
            · rw [endAt_cons, hfc]
              exact he
          · rw [if_neg he] at hin
            cases hin
        · refine ⟨ch :: q, by simp, by simp, List.cons_prefix_cons.mpr ⟨rfl, hqpre⟩, ?_⟩
          rw [endAt_cons, hfc]
          exact hqend
      · rintro ⟨p, rfl, hne, hpre, hend⟩
        cases p with
        | nil => exact absurd rfl hne
        | cons c q =>
          obtain ⟨rfl, hq⟩ := List.cons_prefix_cons.mp hpre
          simp only [endAt_cons, hfc] at hend
          cases q with
          | nil =>
            left
            rw [endAt_nil] at hend
            rw [if_pos hend]
            simp
          | cons c2 q2 =>
            right
            exact ⟨c2 :: q2, by simp, by simp, hq, hend⟩

/-- Every recorded match strictly extends the accumulator. -/
theorem length_lt_of_mem_allMatchesAux {n : TrieNode} {s cur m : List Char}
    (h : m ∈ allMatchesAux n s cur) : cur.length < m.length := by
  obtain ⟨p, rfl, hne, -, -⟩ := (mem_allMatchesAux s n cur m).mp h
  have : 0 < p.length := List.length_pos.mpr hne
  simp [List.length_append]
  omega

/-- The walk records matches in strictly increasing length order
(shortest first). -/
theorem pairwise_allMatchesAux (s : List Char) :
    ∀ (n : TrieNode) (cur : List Char),
      (allMatchesAux n s cur).Pairwise (fun a b => a.length < b.length) := by
  induction s with
  | nil => intro n cur; simp [allMatchesAux]
  | cons ch rest ih =>
    intro n cur
    simp only [allMatchesAux]
    cases hfc : findChild n.children ch with
    | none => simp
    | some next =>
      rw [List.pairwise_append]
      refine ⟨?_, ih next (cur ++ [ch]), ?_⟩
      · by_cases he : next.is_end_of_word <;> simp [he]
      · intro a ha b hb
        have hb' : (cur ++ [ch]).length < b.length := length_lt_of_mem_allMatchesAux hb
        by_cases he : next.is_end_of_word
        · rw [if_pos he] at ha
          simp only [List.mem_singleton] at ha
          subst ha
          exact hb'
        · rw [if_neg he] at ha
          cases ha

theorem nodup_allMatchesAux (s : List Char) (n : TrieNode) (cur : List Char) :
    (allMatchesAux n s cur).Nodup := by
  refine (pairwise_allMatchesAux s n cur).imp ?_
  intro a b hlt heq
  subst heq
  exact lt_irrefl _ hlt

/-- Specialisation to the root call of `search_longest_prefix`
(`segments/trie.rs`): a string is recorded iff it is a non-empty
dictionary word and an initial segment of the text. -/
theorem mem_allMatches_root (t : Trie) (s m : List Char) :
    m ∈ allMatchesAux t.root s [] ↔ m ≠ [] ∧ m <+: s ∧ endAt t.root m = true := by
  rw [mem_allMatchesAux s t.root [] m]
  constructor
  · rintro ⟨p, rfl, h1, h2, h3⟩
    simpa using ⟨h1, h2, h3⟩
  · rintro ⟨h1, h2, h3⟩
    exact ⟨m, by simp, h1, h2, h3⟩

theorem searchMatches_eq_none_iff (t : Trie) (s : List Char) :
    searchMatches t s = none ↔ allMatchesAux t.root s [] = [] := by
  unfold searchMatches
  by_cases h : (allMatchesAux t.root s []).isEmpty
  · simp only [h, if_true]
    simpa using List.isEmpty_iff.mp h
  · simp only [h, if_false]
    simp only [List.isEmpty_iff] at h
    simp [h]

theorem searchMatches_eq_some_iff (t : Trie) (s : List Char) (ms : List (List Char)) :
    searchMatches t s = some ms ↔ allMatchesAux t.root s [] = ms ∧ ms ≠ [] := by
  unfold searchMatches
  by_cases h : (allMatchesAux t.root s []).isEmpty
  · simp only [h, if_true]
    simp only [List.isEmpty_iff] at h
    constructor
    · rintro ⟨⟩
    · rintro ⟨rfl, hne⟩
      exact absurd h hne
  · simp only [h, if_false]
    simp only [List.isEmpty_iff] at h
    constructor
    · rintro ⟨⟩
      exact ⟨rfl, h⟩
    · rintro ⟨rfl, -⟩
      rfl

theorem searchMatches_nil (t : Trie) : searchMatches t [] = none := by
  rw [searchMatches_eq_none_iff]
  rfl

/-- The head of a returned match list is a non-empty initial segment of
the text (i.e. the cursor always advances when a match is emitted). -/
theorem head_searchMatches (t : Trie) (s w : List Char) (ms : List (List Char))
    (h : searchMatches t s = some (w :: ms)) : w ≠ [] ∧ w <+: s := by
  obtain ⟨hall, -⟩ := (searchMatches_eq_some_iff t s (w :: ms)).mp h
  have hw : w ∈ allMatchesAux t.root s [] := by
    rw [hall]
    exact List.mem_cons_self w ms
  obtain ⟨h1, h2, -⟩ := (mem_allMatches_root t s w).mp hw
  exact ⟨h1, h2⟩

/-- An initial segment followed by the rest of the list is the list. -/
theorem append_drop_of_isPre {w s : List Char} (h : w <+: s) :
    w ++ s.drop w.length = s := by
  conv_rhs => rw [← List.take_append_drop w.length s]
  rw [← List.prefix_iff_eq_take.mp h]


/-! ### The segmentation loop of `segments/trie.rs` -/

theorem segmentFuel_nilText (t : Trie) (f : Nat) : segmentFuel t f [] = [] := by
  cases f <;> rfl

theorem segmentFuel_cons1 (t : Trie) (fuel : Nat) (c : Char) :
    segmentFuel t (fuel + 1) [c] =
      match searchMatches t [c] with
      | some (w :: _) => w :: segmentFuel t fuel ([c].drop w.length)
      | some [] => []
      | none => [c] :: segmentFuel t fuel [] := rfl

theorem segmentFuel_cons2 (t : Trie) (fuel : Nat) (c c2 : Char) (cs' : List Char) :
    segmentFuel t (fuel + 1) (c :: c2 :: cs') =
      match searchMatches t (c :: c2 :: cs') with
      | some (w :: _) => w :: segmentFuel t fuel ((c :: c2 :: cs').drop w.length)
      | some [] => []
      | none =>
        if isDiacritic c2 then [c, c2] :: segmentFuel t fuel cs'
        else [c] :: segmentFuel t fuel (c2 :: cs') := rfl

/-- Fuel irrelevance: any fuel of at least one unit per remaining
character computes the same token list — the loop needs at most
`s.length` iterations because each one consumes at least one character. -/
theorem segmentFuel_stable (t : Trie) :
    ∀ (f g : Nat) (s : List Char), s.length ≤ f → s.length ≤ g →
      segmentFuel t f s = segmentFuel t g s := by
  intro f
  induction f with
  | zero =>
    intro g s hf _
    have hs : s = [] := List.length_eq_zero.mp (Nat.le_zero.mp hf)
    subst hs
    rw [segmentFuel_nilText, segmentFuel_nilText]
  | succ f ih =>
    intro g s hf hg
    cases s with
    | nil => rw [segmentFuel_nilText, segmentFuel_nilText]
    | cons c cs =>
      cases g with
      | zero => simp at hg
      | succ g =>
        cases cs with
        | nil =>
          cases hsm : searchMatches t [c] with
          | none =>
            rw [segmentFuel_cons1, segmentFuel_cons1, hsm]
            show [c] :: segmentFuel t f [] = [c] :: segmentFuel t g []
            rw [segmentFuel_nilText, segmentFuel_nilText]
          | some ms =>
            cases ms with
            | nil =>
              rw [segmentFuel_cons1, segmentFuel_cons1, hsm]
            | cons w ms' =>
              obtain ⟨hwne, -⟩ := head_searchMatches t [c] w ms' hsm
              have hw1 : 1 ≤ w.length := List.length_pos.mpr hwne
              have h1 : ([c].drop w.length).length ≤ f := by
                rw [List.length_drop]
                simp only [List.length_cons, List.length_nil]
                omega
              have h2 : ([c].drop w.length).length ≤ g := by
                rw [List.length_drop]
                simp only [List.length_cons, List.length_nil]
                omega
              rw [segmentFuel_cons1, segmentFuel_cons1, hsm]
              show w :: segmentFuel t f ([c].drop w.length) =
                w :: segmentFuel t g ([c].drop w.length)
              rw [ih g ([c].drop w.length) h1 h2]
        | cons c2 cs' =>
          cases hsm : searchMatches t (c :: c2 :: cs') with
          | none =>
            have h1 : cs'.length ≤ f := by
              simp only [List.length_cons] at hf
              omega
            have h2 : cs'.length ≤ g := by
              simp only [List.length_cons] at hg
              omega
            have h3 : (c2 :: cs').length ≤ f := by
              simp only [List.length_cons] at hf ⊢
              omega
            have h4 : (c2 :: cs').length ≤ g := by
              simp only [List.length_cons] at hg ⊢
              omega
            rw [segmentFuel_cons2, segmentFuel_cons2, hsm]
            show (if isDiacritic c2 then [c, c2] :: segmentFuel t f cs'
                else [c] :: segmentFuel t f (c2 :: cs')) =
              (if isDiacritic c2 then [c, c2] :: segmentFuel t g cs'
                else [c] :: segmentFuel t g (c2 :: cs'))
            rw [ih g cs' h1 h2, ih g (c2 :: cs') h3 h4]
          | some ms =>
            cases ms with
            | nil =>
              rw [segmentFuel_cons2, segmentFuel_cons2, hsm]
            | cons w ms' =>
              obtain ⟨hwne, -⟩ := head_searchMatches t (c :: c2 :: cs') w ms' hsm
              have hw1 : 1 ≤ w.length := List.length_pos.mpr hwne
              have h1 : ((c :: c2 :: cs').drop w.length).length ≤ f := by
                rw [List.length_drop]
                simp only [List.length_cons] at hf ⊢
                omega
              have h2 : ((c :: c2 :: cs').drop w.length).length ≤ g := by
                rw [List.length_drop]
                simp only [List.length_cons] at hg ⊢
                omega
              rw [segmentFuel_cons2, segmentFuel_cons2, hsm]
              show w :: segmentFuel t f ((c :: c2 :: cs').drop w.length) =
                w :: segmentFuel t g ((c :: c2 :: cs').drop w.length)
              rw [ih g ((c :: c2 :: cs').drop w.length) h1 h2]

/-- Unfolding `segment_thai_text` one loop iteration on a dictionary
match: the head match `matches[0]` (the shortest) is emitted and the
cursor advances by its character count. -/
theorem segment_cons_of_match (t : Trie) (c : Char) (cs w : List Char)
    (ms : List (List Char)) (h : searchMatches t (c :: cs) = some (w :: ms)) :
    segment_thai_text t (c :: cs) = w :: segment_thai_text t ((c :: cs).drop w.length) := by
  obtain ⟨hwne, -⟩ := head_searchMatches t (c :: cs) w ms h
  have hw1 : 1 ≤ w.length := List.length_pos.mpr hwne
  cases cs with
  | nil =>
    show segmentFuel t (0 + 1) [c] = _
    rw [segmentFuel_cons1, h]
    show w :: segmentFuel t 0 ([c].drop w.length) = _
    have hst : segmentFuel t 0 ([c].drop w.length) =
        segment_thai_text t ([c].drop w.length) := by
      apply segmentFuel_stable
      · rw [List.length_drop]
        simp only [List.length_cons, List.length_nil]
        omega
      · exact Nat.le_refl _
    rw [hst]
  | cons c2 cs' =>
    show segmentFuel t ((c2 :: cs').length + 1) (c :: c2 :: cs') = _
    rw [segmentFuel_cons2, h]
    show w :: segmentFuel t (c2 :: cs').length ((c :: c2 :: cs').drop w.length) = _
    have hst : segmentFuel t (c2 :: cs').length ((c :: c2 :: cs').drop w.length) =
        segment_thai_text t ((c :: c2 :: cs').drop w.length) := by
      apply segmentFuel_stable
      · rw [List.length_drop]
        simp only [List.length_cons]
        omega
      · exact Nat.le_refl _
    rw [hst]

/-- Unfolding `segment_thai_text` one loop iteration on fallback: the
code pushes the current character, merges a following diacritic of the
fixed set if one exists (advancing by 2), and otherwise advances by 1. -/
theorem segment_singleton_of_none (t : Trie) (c : Char)
    (h : searchMatches t [c] = none) : segment_thai_text t [c] = [[c]] := by
  show segmentFuel t (0 + 1) [c] = _
  rw [segmentFuel_cons1, h]
  show [c] :: segmentFuel t 0 [] = [[c]]
  rfl

theorem segment_cons_of_none (t : Trie) (c c2 : Char) (cs' : List Char)
    (h : searchMatches t (c :: c2 :: cs') = none) :
    segment_thai_text t (c :: c2 :: cs') =
      if isDiacritic c2 then [c, c2] :: segment_thai_text t cs'
      else [c] :: segment_thai_text t (c2 :: cs') := by
  show segmentFuel t ((c2 :: cs').length + 1) (c :: c2 :: cs') = _
  rw [segmentFuel_cons2, h]
  show (if isDiacritic c2 then [c, c2] :: segmentFuel t (c2 :: cs').length cs'
      else [c] :: segmentFuel t (c2 :: cs').length (c2 :: cs')) =
    (if isDiacritic c2 then [c, c2] :: segment_thai_text t cs'
      else [c] :: segment_thai_text t (c2 :: cs'))
  have hst : segmentFuel t (c2 :: cs').length cs' = segment_thai_text t cs' := by
    apply segmentFuel_stable
    · simp only [List.length_cons]
      omega
    · exact Nat.le_refl _
  rw [hst]
  rfl

/-- Round-trip at the fuel level: with enough fuel the emitted tokens
concatenate back to the input. -/
theorem flatten_segmentFuel (t : Trie) :
    ∀ (f : Nat) (s : List Char), s.length ≤ f → (segmentFuel t f s).flatten = s := by
  intro f
  induction f with
  | zero =>
    intro s hf
    have hs : s = [] := List.length_eq_zero.mp (Nat.le_zero.mp hf)
    subst hs
    rfl
  | succ f ih =>
    intro s hf
    cases s with
    | nil => rfl
    | cons c cs =>
      cases cs with
      | nil =>
        cases hsm : searchMatches t [c] with
        | none =>
          rw [segmentFuel_cons1, hsm]
          show ([c] :: segmentFuel t f []).flatten = [c]
          rw [segmentFuel_nilText]
          rfl
        | some ms =>
          cases ms with
          | nil => exact absurd rfl ((searchMatches_eq_some_iff t [c] []).mp hsm).2
          | cons w ms' =>
            obtain ⟨hwne, hwpre⟩ := head_searchMatches t [c] w ms' hsm
            have hw1 : 1 ≤ w.length := List.length_pos.mpr hwne
            have h1 : ([c].drop w.length).length ≤ f := by
              rw [List.length_drop]
              simp only [List.length_cons, List.length_nil]
              omega
            rw [segmentFuel_cons1, hsm]
            show (w :: segmentFuel t f ([c].drop w.length)).flatten = [c]
            rw [List.flatten_cons, ih ([c].drop w.length) h1]
            exact append_drop_of_isPre hwpre
      | cons c2 cs' =>
        cases hsm : searchMatches t (c :: c2 :: cs') with
        | none =>
          rw [segmentFuel_cons2, hsm]
          show (if isDiacritic c2 then [c, c2] :: segmentFuel t f cs'
              else [c] :: segmentFuel t f (c2 :: cs')).flatten = c :: c2 :: cs'
          by_cases hd : isDiacritic c2
          · have h1 : cs'.length ≤ f := by
              simp only [List.length_cons] at hf
              omega
            rw [if_pos hd, List.flatten_cons, ih cs' h1]
            rfl
          · have h1 : (c2 :: cs').length ≤ f := by
              simp only [List.length_cons] at hf ⊢
              omega
            rw [if_neg hd, List.flatten_cons, ih (c2 :: cs') h1]
            rfl
        | some ms =>
          cases ms with
          | nil =>
            exact absurd rfl ((searchMatches_eq_some_iff t (c :: c2 :: cs') []).mp hsm).2
          | cons w ms' =>
            obtain ⟨hwne, hwpre⟩ := head_searchMatches t (c :: c2 :: cs') w ms' hsm
            have hw1 : 1 ≤ w.length := List.length_pos.mpr hwne
            have h1 : ((c :: c2 :: cs').drop w.length).length ≤ f := by
              rw [List.length_drop]
              simp only [List.length_cons] at hf ⊢
              omega
            rw [segmentFuel_cons2, hsm]
            show (w :: segmentFuel t f ((c :: c2 :: cs').drop w.length)).flatten =
              c :: c2 :: cs'
            rw [List.flatten_cons, ih ((c :: c2 :: cs').drop w.length) h1]
            exact append_drop_of_isPre hwpre

/-- Every emitted token holds at least one character: the cursor strictly
advances on every loop iteration. -/
theorem one_le_length_of_mem_segmentFuel (t : Trie) :
    ∀ (f : Nat) (s tok : List Char), tok ∈ segmentFuel t f s → 1 ≤ tok.length := by
  intro f
  induction f with
  | zero =>
    intro s tok h
    exact absurd h (by simp [segmentFuel])
  | succ f ih =>
    intro s tok h
    cases s with
    | nil =>
      rw [segmentFuel_nilText] at h
      exact absurd h (List.not_mem_nil tok)
    | cons c cs =>
      cases cs with
      | nil =>
        cases hsm : searchMatches t [c] with
        | none =>
          rw [segmentFuel_cons1, hsm] at h
          have h' : tok ∈ [c] :: segmentFuel t f [] := h
          rw [segmentFuel_nilText] at h'
          simp only [List.mem_singleton] at h'
          subst h'
          simp
        | some ms =>
          cases ms with
          | nil => exact absurd rfl ((searchMatches_eq_some_iff t [c] []).mp hsm).2
          | cons w ms' =>
            rw [segmentFuel_cons1, hsm] at h
            have h' : tok ∈ w :: segmentFuel t f ([c].drop w.length) := h
            rcases List.mem_cons.mp h' with h'' | h''
            · obtain ⟨hwne, -⟩ := head_searchMatches t [c] w ms' hsm
              subst h''
              exact List.length_pos.mpr hwne
            · exact ih ([c].drop w.length) tok h''
      | cons c2 cs' =>
        cases hsm : searchMatches t (c :: c2 :: cs') with
        | none =>
          rw [segmentFuel_cons2, hsm] at h
          have h' : tok ∈ (if isDiacritic c2 then [c, c2] :: segmentFuel t f cs'
              else [c] :: segmentFuel t f (c2 :: cs')) := h
          by_cases hd : isDiacritic c2
          · rw [if_pos hd] at h'
            rcases List.mem_cons.mp h' with h'' | h''
            · subst h''
              simp
            · exact ih cs' tok h''
          · rw [if_neg hd] at h'
            rcases List.mem_cons.mp h' with h'' | h''
            · subst h''
              simp
            · exact ih (c2 :: cs') tok h''
        | some ms =>
          cases ms with
          | nil =>
            exact absurd rfl ((searchMatches_eq_some_iff t (c :: c2 :: cs') []).mp hsm).2
          | cons w ms' =>
            rw [segmentFuel_cons2, hsm] at h
            have h' : tok ∈ w :: segmentFuel t f ((c :: c2 :: cs').drop w.length) := h
            rcases List.mem_cons.mp h' with h'' | h''
            · obtain ⟨hwne, -⟩ := head_searchMatches t (c :: c2 :: cs') w ms' hsm
              subst h''
              exact List.length_pos.mpr hwne
            · exact ih ((c :: c2 :: cs').drop w.length) tok h''

/-! ### The longest-match search of `trie/trie.rs` -/

/-- The walk of `trie/trie.rs` keeps exactly the LAST match that the walk
of `segments/trie.rs` would record (falling back to the incoming
`longest_match` accumulator). -/
theorem searchLongestAux_eq (s : List Char) :
    ∀ (n : TrieNode) (cur : List Char) (best : Option (List Char)),
      searchLongestAux n s cur best = ((allMatchesAux n s cur).getLast?).or best := by
  induction s with
  | nil => intro n cur best; simp [searchLongestAux, allMatchesAux]
  | cons ch rest ih =>
    intro n cur best
    simp only [searchLongestAux, allMatchesAux]
    cases hfc : findChild n.children ch with
    | none => simp
    | some next =>
      show searchLongestAux next rest (cur ++ [ch])
          (if next.is_end_of_word then some (cur ++ [ch]) else best) =
        ((if next.is_end_of_word then [cur ++ [ch]] else []) ++
          allMatchesAux next rest (cur ++ [ch])).getLast?.or best
      rw [ih next (cur ++ [ch])]
      rw [List.getLast?_append]
      by_cases he : next.is_end_of_word
      · rw [if_pos he, if_pos he]
        cases (allMatchesAux next rest (cur ++ [ch])).getLast? with
        | none => simp
        | some m => simp
      · rw [if_neg he, if_neg he]
        simp

theorem searchLongest_eq (t : Trie) (s : List Char) :
    searchLongest t s = (allMatchesAux t.root s []).getLast? := by
  rw [searchLongest, searchLongestAux_eq]
  simp

/-- The last element of a strictly length-sorted list is its member of
maximal length. -/
theorem getLast?_spec :
    ∀ (l : List (List Char)), l.Pairwise (fun a b => a.length < b.length) →
      ∀ m, l.getLast? = some m → m ∈ l ∧ ∀ x ∈ l, x.length ≤ m.length := by
  intro l
  induction l with
  | nil =>
    intro _ m h
    cases h
  | cons a l ih =>
    intro hp m h
    cases l with
    | nil =>
      simp only [List.getLast?_singleton, Option.some.injEq] at h
      subst h
      refine ⟨List.mem_singleton_self _, ?_⟩
      intro x hx
      rw [List.mem_singleton] at hx
      subst hx
      exact Nat.le_refl _
    | cons b l' =>
      rw [List.getLast?_cons_cons] at h
      obtain ⟨hrel, hp'⟩ := List.pairwise_cons.mp hp
      obtain ⟨hmem, hmax⟩ := ih hp' m h
      refine ⟨List.mem_cons_of_mem a hmem, ?_⟩
      intro x hx
      rcases List.mem_cons.mp hx with rfl | hx'
      · exact Nat.le_of_lt (hrel m hmem)
      · exact hmax x hx'

/-- `search_longest_prefix` of `trie/trie.rs` returns the longest of the
matches that the walk records. -/
theorem searchLongest_spec (t : Trie) (s w : List Char) (h : searchLongest t s = some w) :
    w ∈ allMatchesAux t.root s [] ∧ ∀ x ∈ allMatchesAux t.root s [], x.length ≤ w.length := by
  rw [searchLongest_eq] at h
  exact getLast?_spec (allMatchesAux t.root s []) (pairwise_allMatchesAux s t.root []) w h

/-! ### Idempotence of `Trie::insert` -/

theorem updateAssoc_updateAssoc (cs : List (Char × TrieNode)) (ch : Char)
    (f g : TrieNode → TrieNode) :
    updateAssoc (updateAssoc cs ch f) ch g = updateAssoc cs ch (fun n => g (f n)) := by
  induction cs with
  | nil => simp [updateAssoc]
  | cons p rest ih =>
    obtain ⟨c, n⟩ := p
    by_cases h : c = ch
    · subst h
      simp [updateAssoc]
    · simp [updateAssoc, h, ih]

theorem insertW_idem (w : List Char) : ∀ n, insertW w (insertW w n) = insertW w n := by
  induction w with
  | nil =>
    intro n
    cases n with
    | node e cs => rfl
  | cons ch w' ih =>
    intro n
    cases n with
    | node e cs =>
      show TrieNode.node e
          (updateAssoc (updateAssoc cs ch fun m => insertW w' m) ch fun m => insertW w' m) = _
      have hff : (fun m => insertW w' (insertW w' m)) = (fun m => insertW w' m) := funext ih
      rw [updateAssoc_updateAssoc, hff]
      rfl

theorem insert_idem (t : Trie) (w : List Char) : (t.insert w).insert w = t.insert w := by
  show Trie.mk (insertW w (insertW w t.root)) = Trie.mk (insertW w t.root)
  rw [insertW_idem w t.root]

/-! ### The query never consults the root's end-of-word flag -/

theorem allMatchesAux_flag (s : List Char) (e e' : Bool) (cs : List (Char × TrieNode))
    (cur : List Char) :
    allMatchesAux (.node e cs) s cur = allMatchesAux (.node e' cs) s cur := by
  cases s <;> rfl

theorem insert_nil_root (t : Trie) :
    (t.insert []).root = TrieNode.node true t.root.children := by
  obtain ⟨root⟩ := t
  cases root with
  | node e cs => rfl

theorem searchMatches_insert_nil (t : Trie) (s : List Char) :
    searchMatches (t.insert []) s = searchMatches t s := by
  have key : allMatchesAux (t.insert []).root s [] = allMatchesAux t.root s [] := by
    rw [insert_nil_root]
    obtain ⟨root⟩ := t
    cases root with
    | node e cs => exact allMatchesAux_flag s true e cs []
  unfold searchMatches
  rw [key]

/-! ### Match behaviour depends only on dictionary membership -/

/-- Two tries whose word sets agree (on non-empty words) record the same
matches on every text: the match list is exactly the non-empty
dictionary initial segments sorted by length, which determines it. -/
theorem allMatches_ext (t₁ t₂ : Trie)
    (hend : ∀ p, p ≠ [] → endAt t₁.root p = endAt t₂.root p) (s : List Char) :
    allMatchesAux t₁.root s [] = allMatchesAux t₂.root s [] := by
  haveI inst : IsAntisymm (List Char) (fun a b => a.length < b.length) :=
    ⟨fun a b h1 h2 => absurd (h1.trans h2) (lt_irrefl _)⟩
  refine List.eq_of_perm_of_sorted ?_ (pairwise_allMatchesAux s t₁.root [])
    (pairwise_allMatchesAux s t₂.root [])
  refine (List.perm_ext_iff_of_nodup (nodup_allMatchesAux s t₁.root [])
    (nodup_allMatchesAux s t₂.root [])).mpr ?_
  intro m
  rw [mem_allMatches_root, mem_allMatches_root]
  constructor
  · rintro ⟨h1, h2, h3⟩
    exact ⟨h1, h2, by rw [← hend m h1]; exact h3⟩
  · rintro ⟨h1, h2, h3⟩
    exact ⟨h1, h2, by rw [hend m h1]; exact h3⟩

theorem searchMatches_ext (t₁ t₂ : Trie)
    (hend : ∀ p, p ≠ [] → endAt t₁.root p = endAt t₂.root p) (s : List Char) :
    searchMatches t₁ s = searchMatches t₂ s := by
  unfold searchMatches
  rw [allMatches_ext t₁ t₂ hend s]

theorem segmentFuel_ext (t₁ t₂ : Trie)
    (h : ∀ s, searchMatches t₁ s = searchMatches t₂ s) :
    ∀ (f : Nat) (s : List Char), segmentFuel t₁ f s = segmentFuel t₂ f s := by
  intro f
  induction f with
  | zero => intro s; rfl
  | succ f ih =>
    intro s
    cases s with
    | nil => rfl
    | cons c cs =>
      cases cs with
      | nil =>
        cases hsm : searchMatches t₁ [c] with
        | none =>
          have hsm₂ : searchMatches t₂ [c] = none := by rw [← h [c]]; exact hsm
          rw [segmentFuel_cons1, segmentFuel_cons1, hsm, hsm₂]
          show [c] :: segmentFuel t₁ f [] = [c] :: segmentFuel t₂ f []
          rw [ih []]
        | some ms =>
          have hsm₂ : searchMatches t₂ [c] = some ms := by rw [← h [c]]; exact hsm
          cases ms with
          | nil => rw [segmentFuel_cons1, segmentFuel_cons1, hsm, hsm₂]
          | cons w ms' =>
            rw [segmentFuel_cons1, segmentFuel_cons1, hsm, hsm₂]
            show w :: segmentFuel t₁ f ([c].drop w.length) =
              w :: segmentFuel t₂ f ([c].drop w.length)
            rw [ih ([c].drop w.length)]
      | cons c2 cs' =>
        cases hsm : searchMatches t₁ (c :: c2 :: cs') with
        | none =>
          have hsm₂ : searchMatches t₂ (c :: c2 :: cs') = none := by
            rw [← h (c :: c2 :: cs')]
            exact hsm
          rw [segmentFuel_cons2, segmentFuel_cons2, hsm, hsm₂]
          show (if isDiacritic c2 then [c, c2] :: segmentFuel t₁ f cs'
              else [c] :: segmentFuel t₁ f (c2 :: cs')) =
            (if isDiacritic c2 then [c, c2] :: segmentFuel t₂ f cs'
              else [c] :: segmentFuel t₂ f (c2 :: cs'))
          rw [ih cs', ih (c2 :: cs')]
        | some ms =>
          have hsm₂ : searchMatches t₂ (c :: c2 :: cs') = some ms := by
            rw [← h (c :: c2 :: cs')]
            exact hsm
          cases ms with
          | nil => rw [segmentFuel_cons2, segmentFuel_cons2, hsm, hsm₂]
          | cons w ms' =>
            rw [segmentFuel_cons2, segmentFuel_cons2, hsm, hsm₂]
            show w :: segmentFuel t₁ f ((c :: c2 :: cs').drop w.length) =
              w :: segmentFuel t₂ f ((c :: c2 :: cs').drop w.length)
            rw [ih ((c :: c2 :: cs').drop w.length)]

theorem searchMatches_ne_some_nil (t : Trie) (s : List Char) :
    searchMatches t s ≠ some [] :=
  fun h => absurd rfl ((searchMatches_eq_some_iff t s []).mp h).2

/-! ### The claims -/

/-- C1.  Round-trip: for every trie and every input, the tokens of the
`segments/trie.rs` copy of `segment_thai_text` concatenate back to the
input exactly.  The `trie/trie.rs` copy violates the property on
multi-byte input: on the dictionary {"éx"} and the text "éx" it returns
the tokens ["éx", "x"], whose concatenation "éxx" is not the input —
its byte cursor is advanced by a character count after a match. -/
theorem c1_round_trip :
    (∀ (t : Trie) (s : List Char), (segment_thai_text t s).flatten = s) ∧
    segment_thai_text_v2 trieEX [eAcute, 'x'] = some [[eAcute, 'x'], ['x']] ∧
    (([[eAcute, 'x'], ['x']].flatten == [eAcute, 'x']) = false) := by
  refine ⟨?_, by decide, by decide⟩
  intro t s
  exact flatten_segmentFuel t s.length s (Nat.le_refl _)

/-- C2.  The prefix-match query of `segments/trie.rs` returns exactly
the non-empty dictionary words among the text's initial segments
(reachable by walking the text's characters from the root), ordered
strictly from shortest to longest, and returns `None` iff the walk
records no match — i.e. iff no non-empty initial segment of the text is
a dictionary word. -/
theorem c2_match_query (t : Trie) (s : List Char) :
    (∀ ms, searchMatches t s = some ms →
      (∀ m, m ∈ ms ↔ m ≠ [] ∧ m <+: s ∧ endAt t.root m = true) ∧
      ms.Pairwise (fun a b => a.length < b.length)) ∧
    (searchMatches t s = none ↔ ∀ p, p ≠ [] → p <+: s → endAt t.root p = false) := by
  constructor
  · intro ms hms
    obtain ⟨hall, -⟩ := (searchMatches_eq_some_iff t s ms).mp hms
    subst hall
    exact ⟨fun m => mem_allMatches_root t s m, pairwise_allMatchesAux s t.root []⟩
  · rw [searchMatches_eq_none_iff]
    constructor
    · intro hnil p hp hpre
      have hcase : endAt t.root p = true ∨ endAt t.root p = false := by
        cases endAt t.root p
        · exact Or.inr rfl
        · exact Or.inl rfl
      rcases hcase with hend | hend
      · have hmem : p ∈ allMatchesAux t.root s [] :=
          (mem_allMatches_root t s p).mpr ⟨hp, hpre, hend⟩
        rw [hnil] at hmem
        exact absurd hmem (List.not_mem_nil p)
      · exact hend
    · intro hforall
      by_contra hne
      obtain ⟨m, hm⟩ := List.exists_mem_of_ne_nil _ hne
      obtain ⟨h1, h2, h3⟩ := (mem_allMatches_root t s m).mp hm
      rw [hforall m h1 h2] at h3
      exact Bool.noConfusion h3

/-- C3.  On the trie of exactly the five words «สวัสดี», «ครับ», «คุณ»,
«ไป», «ที่ไหน», the `segments/trie.rs` copy of `segment_thai_text`
segments «สวัสดีครับคุณไปที่ไหน» into exactly those five tokens; the
`trie/trie.rs` copy panics on the very same input (it slices the text at
byte index 7, inside the third character, after advancing its byte
cursor by the character count 6 of the first match). -/
theorem c3_five_words :
    segment_thai_text trieFive textFive =
      [wordSawasdee, wordKhrap, wordKhun, wordPai, wordThinai] ∧
    segment_thai_text_v2 trieFive textFive = none := ⟨by decide, by decide⟩

/-- C4.  The two copies implement divergent match-selection policies:
`segments/trie.rs` emits `matches[0]`, the strictly shortest match at
the scan position; `trie/trie.rs` keeps the last match of the same walk,
which is the longest; consequently on the dictionary {"a", "ab"} and the
text "ab" the copies return different token sequences. -/
theorem c4_divergent_policies :
    (∀ (t : Trie) (s w : List Char) (ms : List (List Char)),
      searchMatches t s = some (w :: ms) →
        (∀ x ∈ w :: ms, w.length ≤ x.length) ∧
        segment_thai_text t s = w :: segment_thai_text t (s.drop w.length)) ∧
    (∀ (t : Trie) (s : List Char), searchLongest t s = (allMatchesAux t.root s []).getLast?) ∧
    (∀ (t : Trie) (s w : List Char), searchLongest t s = some w →
      w ∈ allMatchesAux t.root s [] ∧ ∀ x ∈ allMatchesAux t.root s [], x.length ≤ w.length) ∧
    (segment_thai_text trieAB ['a', 'b'] = [['a'], ['b']] ∧
      segment_thai_text_v2 trieAB ['a', 'b'] = some [['a', 'b']] ∧
      ((segment_thai_text trieAB ['a', 'b'] == [['a', 'b']]) = false)) := by
  refine ⟨?_, searchLongest_eq, searchLongest_spec, by decide, by decide, by decide⟩
  intro t s w ms h
  constructor
  · intro x hx
    obtain ⟨hall, -⟩ := (searchMatches_eq_some_iff t s (w :: ms)).mp h
    have hp := pairwise_allMatchesAux s t.root []
    rw [hall] at hp
    rcases List.mem_cons.mp hx with rfl | hx'
    · exact Nat.le_refl _
    · exact Nat.le_of_lt ((List.pairwise_cons.mp hp).1 x hx')
  · cases s with
    | nil =>
      rw [searchMatches_nil] at h
      cases h
    | cons c cs => exact segment_cons_of_match t c cs w ms h

/-- C5.  Diacritic fallback of `segments/trie.rs`: when no dictionary
match exists at the scan position and the next character is one of
U+0E47..U+0E4B, the emitted token is exactly the two characters and the
cursor advances by 2; otherwise (next character absent or not in the
set) the token is the single current character and the cursor advances
by 1. -/
theorem c5_diacritic_fallback (t : Trie) (c : Char) (cs : List Char)
    (h : searchMatches t (c :: cs) = none) :
    (∀ c2 cs', cs = c2 :: cs' → isDiacritic c2 = true →
      segment_thai_text t (c :: cs) = [c, c2] :: segment_thai_text t cs') ∧
    (∀ c2 cs', cs = c2 :: cs' → isDiacritic c2 = false →
      segment_thai_text t (c :: cs) = [c] :: segment_thai_text t (c2 :: cs')) ∧
    (cs = [] → segment_thai_text t (c :: cs) = [[c]]) := by
  refine ⟨?_, ?_, ?_⟩
  · rintro c2 cs' rfl hd
    rw [segment_cons_of_none t c c2 cs' h, if_pos hd]
  · rintro c2 cs' rfl hd
    rw [segment_cons_of_none t c c2 cs' h, if_neg (by rw [hd]; exact Bool.false_ne_true)]
  · rintro rfl
    exact segment_singleton_of_none t c h

/-- C5 witness: on the empty dictionary, "a" followed by the combining
mark U+0E48 is emitted as the single two-character token. -/
theorem c5_witness :
    searchMatches Trie.new ['a', Char.ofNat 0xe48] = none ∧
    segment_thai_text Trie.new ['a', Char.ofNat 0xe48] = [['a', Char.ofNat 0xe48]] := by
  refine ⟨by decide, ?_⟩
  have h := (c5_diacritic_fallback Trie.new 'a' [Char.ofNat 0xe48] (by decide)).1
    (Char.ofNat 0xe48) [] rfl (by decide)
  rw [h]
  rfl

/-- C6.  Termination of the `segments/trie.rs` loop: empty input yields
an empty token list immediately (in both copies), every emitted token
consumes at least one character (the cursor strictly increases), and any
fuel of at least one step per character already computes the total
result — the loop ends exactly when the whole input is consumed.  The
`trie/trie.rs` copy, however, is not total: on the empty trie and the
one-character text "é" it panics slicing the first byte of a two-byte
character. -/
theorem c6_termination :
    (∀ t : Trie, segment_thai_text t [] = [] ∧ segment_thai_text_v2 t [] = some []) ∧
    (∀ (t : Trie) (s : List Char) (k : Nat),
      segmentFuel t (s.length + k) s = segment_thai_text t s) ∧
    (∀ (t : Trie) (s : List Char),
      (segment_thai_text t s).all (fun tok => decide (1 ≤ tok.length)) = true) ∧
    segment_thai_text_v2 Trie.new [eAcute] = none := by
  refine ⟨fun t => ⟨rfl, rfl⟩, ?_, ?_, by decide⟩
  · intro t s k
    exact segmentFuel_stable t (s.length + k) s.length s (Nat.le_add_right _ _)
      (Nat.le_refl _)
  · intro t s
    rw [List.all_eq_true]
    intro tok htok
    rw [decide_eq_true_eq]
    exact one_le_length_of_mem_segmentFuel t s.length s tok htok

/-- C7 counterexample: inserting the empty word into the fresh trie sets
the root node's end-of-word flag (false before, true after), so the trie
is changed — the claim that `insert(T, "")` leaves `T` unchanged and
does not mark the root is false. -/
theorem c7_counterexample :
    (Trie.new.insert []).root.is_end_of_word = true ∧
    Trie.new.root.is_end_of_word = false ∧
    Trie.new.insert [] ≠ Trie.new := by
  refine ⟨rfl, rfl, fun h => ?_⟩
  have h1 : (Trie.new.insert []).root.is_end_of_word = true := rfl
  rw [h] at h1
  exact Bool.noConfusion h1

/-- C7 amended: inserting the empty word sets the root's end-of-word
flag and changes nothing else — the root's children are untouched and
the prefix-match query (which never consults the root's flag) returns
identical results on every text. -/
theorem c7_insert_empty (t : Trie) :
    (t.insert []).root.is_end_of_word = true ∧
    (t.insert []).root.children = t.root.children ∧
    ∀ s, searchMatches (t.insert []) s = searchMatches t s := by
  refine ⟨?_, ?_, searchMatches_insert_nil t⟩
  · rw [insert_nil_root]
    rfl
  · rw [insert_nil_root]
    rfl

/-- C8.  Idempotent insert: inserting the same word twice produces the
very same trie structure, hence in particular identical prefix-match
results on every text. -/
theorem c8_insert_idempotent (t : Trie) (w : List Char) :
    (t.insert w).insert w = t.insert w ∧
    ∀ s, searchMatches ((t.insert w).insert w) s = searchMatches (t.insert w) s := by
  refine ⟨insert_idem t w, fun s => ?_⟩
  rw [insert_idem t w]

/-- C9.  Every match the prefix-match query returns is non-empty, and
the query never consults the root's end-of-word flag: after inserting
the empty string (which sets that flag) every query result is unchanged,
so a zero-length match is never produced. -/
theorem c9_matches_nonempty_root_flag :
    (∀ (t : Trie) (s : List Char) (ms : List (List Char)) (m : List Char),
      searchMatches t s = some ms → m ∈ ms → 1 ≤ m.length) ∧
    (∀ (t : Trie) (s : List Char), searchMatches (t.insert []) s = searchMatches t s) := by
  constructor
  · intro t s ms m hms hm
    obtain ⟨hall, -⟩ := (searchMatches_eq_some_iff t s ms).mp hms
    rw [← hall] at hm
    obtain ⟨h1, -, -⟩ := (mem_allMatches_root t s m).mp hm
    exact List.length_pos.mpr h1
  · exact searchMatches_insert_nil

/-- C10.  Insertion order is irrelevant: building the trie from any
permutation of a word list yields identical prefix-match results and
identical segmentations on every text. -/
theorem c10_insertion_order (ws₁ ws₂ : List (List Char)) (hperm : ws₁.Perm ws₂) :
    ∀ s : List Char,
      searchMatches (buildTrie ws₁) s = searchMatches (buildTrie ws₂) s ∧
      segment_thai_text (buildTrie ws₁) s = segment_thai_text (buildTrie ws₂) s := by
  have hend : ∀ p, p ≠ [] → endAt (buildTrie ws₁).root p = endAt (buildTrie ws₂).root p := by
    intro p _
    rw [endAt_buildTrie, endAt_buildTrie]
    exact decide_eq_decide.mpr hperm.mem_iff
  have hsearch := searchMatches_ext (buildTrie ws₁) (buildTrie ws₂) hend
  intro s
  refine ⟨hsearch s, ?_⟩
  exact segmentFuel_ext (buildTrie ws₁) (buildTrie ws₂) hsearch s.length s

/-- C10 witness: the dictionaries built from ["a", "ab"] and from
["ab", "a"] answer the query on "ab" identically. -/
theorem c10_witness :
    ([['a'], ['a', 'b']] : List (List Char)).Perm [['a', 'b'], ['a']] ∧
    searchMatches (buildTrie [['a'], ['a', 'b']]) ['a', 'b'] =
      searchMatches (buildTrie [['a', 'b'], ['a']]) ['a', 'b'] := by
  refine ⟨by decide, ?_⟩
  exact (c10_insertion_order [['a'], ['a', 'b']] [['a', 'b'], ['a']] (by decide) ['a', 'b']).1
